import Mathlib

/-!
Verification development for the FL Studio `.flp` parser/serializer
(`src/parser/FlpParser.ts`, `src/generated/events.generated.ts`,
`src/io/BinaryReader.ts`, `src/io/BinaryWriter.ts`).

A Node `Buffer` is modelled as a `List Nat` of byte values; positioned
reads mirror the `smart-buffer` primitives (fixed-width reads throw on
exhaustion, `readBuffer` clamps), the protobufjs var-int reader and
writer are modelled byte for byte, and JavaScript 32-bit arithmetic is
made explicit (`% 2^32`, shift counts taken mod 32, signed reinterpretation
for comparisons).  Loops of the source are expressed with an explicit
step-count argument that is always called with its exact value
(`end - off` for byte-consuming loops, which advance by at least one byte
per step, so the zero case coincides with the loop-exit condition).
-/

/-- Byte buffers (Node `Buffer`) are lists of byte values. -/
abbrev Bytes := List Nat

/-- Reading one byte at index `i`: a `Buffer` stores values mod 256.
Out-of-range accesses only occur in dead branches of the model. -/
def byteAt (b : Bytes) (i : Nat) : Nat := b.getD i 0 % 256

/-- The slice `[s, e)` of a buffer (`Buffer.subarray` / `slice`; clamps
at the end of the buffer like the Node originals). -/
def sliceBytes (b : Bytes) (s e : Nat) : Bytes := (b.drop s).take (e - s)

/-- A list is a faithful image of a Node `Buffer` iff every entry is a byte. -/
def isBytes (b : Bytes) : Prop := ∀ x ∈ b, x < 256

instance (b : Bytes) : Decidable (isBytes b) := by
  unfold isBytes; infer_instance

/-- Reinterpret a 32-bit pattern as a signed JavaScript 32-bit integer. -/
def toInt32 (n : Nat) : Int :=
  if n < 2147483648 then (n : Int) else (n : Int) - 4294967296

/-- `readUInt32LE` at absolute offset `i` (throws, i.e. `none`, past the end). -/
def readU32 (b : Bytes) (i : Nat) : Option Nat :=
  if i + 4 ≤ b.length then
    some (byteAt b i + 256 * byteAt b (i+1) + 65536 * byteAt b (i+2) +
          16777216 * byteAt b (i+3))
  else none

/-- `readUInt16LE` at absolute offset `i`. -/
def readU16 (b : Bytes) (i : Nat) : Option Nat :=
  if i + 2 ≤ b.length then some (byteAt b i + 256 * byteAt b (i+1)) else none

/-- `readInt16LE` at absolute offset `i` (two's-complement). -/
def readI16 (b : Bytes) (i : Nat) : Option Int :=
  (readU16 b i).map (fun v => if v < 32768 then (v : Int) else (v : Int) - 65536)

/-- The four bytes emitted by `writeUInt32LE` for a value below `2^32`. -/
def u32leBytes (v : Nat) : Bytes :=
  [v % 256, v / 256 % 256, v / 65536 % 256, v / 16777216 % 256]

/-- Event data-type classification (`EventKind` in `events.generated.ts`). -/
inductive EventKind where
  | u8 | i8 | u16 | i16 | u32 | i32 | f32 | text | data | unknown
deriving DecidableEq

/-- The explicit `EVENT_KIND` record of `events.generated.ts`, as a partial map
from event id to kind.  Every key/value pair of the source table is listed
(ids written in decimal; the source builds them from the range constants). -/
def EVENT_KIND (id : Nat) : Option EventKind :=
  match id with
  | 9 => some .u8 | 10 => some .u8 | 12 => some .u8 | 23 => some .u8
  | 28 => some .u8 | 66 => some .u16 | 80 => some .i16 | 93 => some .u16
  | 146 => some .i32 | 156 => some .u32 | 159 => some .u32
  | 194 => some .text | 195 => some .text | 197 => some .text
  | 198 => some .text | 199 => some .text | 200 => some .text
  | 202 => some .text | 206 => some .text | 207 => some .text
  | 237 => some .data
  | 0 => some .u8 | 2 => some .u8 | 3 => some .u8 | 15 => some .u8
  | 20 => some .u8 | 21 => some .u8 | 22 => some .i8 | 32 => some .u8
  | 64 => some .u16 | 69 => some .u16 | 70 => some .u16 | 71 => some .u16
  | 72 => some .u16 | 73 => some .u16 | 74 => some .u16 | 75 => some .u16
  | 76 => some .u16 | 83 => some .u16 | 85 => some .u16 | 86 => some .u16
  | 89 => some .u16 | 94 => some .u16 | 97 => some .u16
  | 131 => some .u32 | 132 => some .u32 | 135 => some .u32 | 138 => some .u32
  | 139 => some .u32 | 140 => some .f32 | 142 => some .i32 | 143 => some .u32
  | 144 => some .u32 | 145 => some .i32 | 153 => some .u32
  | 192 => some .text | 196 => some .text
  | 209 => some .data | 215 => some .data | 218 => some .data
  | 219 => some .data | 221 => some .data | 228 => some .data
  | 229 => some .data | 234 => some .data
  | 128 => some .u32 | 155 => some .u32
  | 201 => some .text | 203 => some .text
  | 212 => some .data | 213 => some .data
  | 231 => some .data
  | 11 => some .u8 | 13 => some .u8 | 133 => some .u32
  | 98 => some .u16 | 95 => some .i16 | 147 => some .i32 | 149 => some .u32
  | 154 => some .i32 | 204 => some .text | 235 => some .data | 236 => some .data
  | _ => none

/-- `NEW_TEXT_IDS = [TEXT + 49, TEXT + 39, TEXT + 47]` (ids that use
text payloads although they sit in the DATA range). -/
def NEW_TEXT_IDS : List Nat := [241, 231, 239]

/-- `getEventKind`: the explicit mapping first, then range-based fallback. -/
def getEventKind (id : Nat) : EventKind :=
  match EVENT_KIND id with
  | some k => k
  | none =>
    if id < 64 then .u8
    else if id < 128 then .u16
    else if id < 192 then .u32
    else if id < 208 || NEW_TEXT_IDS.contains id then .text
    else .data

/-- `KNOWN_DWORD_IDS`: ids in `[DWORD, TEXT) = [128, 192)` that are explicitly
mapped in `EVENT_KIND`. -/
def KNOWN_DWORD_IDS (id : Nat) : Bool :=
  decide (128 ≤ id) && decide (id < 192) && (EVENT_KIND id).isSome

/-- One step of `readVarIntRaw`'s accumulation: JavaScript evaluates
`size |= (byte & 0x7f) << shift` on 32-bit patterns, with the shift count
taken mod 32. -/
def vliStep (acc shift b : Nat) : Nat :=
  Nat.lor acc ((b &&& 127) <<< (shift % 32) % 4294967296)

/-- Loop of `readVarIntRaw` (FlpParser.ts lines 78-96).  The step count is
always instantiated with `E - off`, which mirrors the source exactly: the
loop consumes one byte per iteration and fails (`{size: -1}`) as soon as
`off >= E`, which is precisely the zero case. -/
def readVarIntRawAux (buf : Bytes) (E : Nat) : Nat → Nat → Nat → Nat → Option (Nat × Nat)
  | 0, _, _, _ => none
  | fuel+1, off, shift, acc =>
    if off < E then
      let b := byteAt buf off
      let acc' := vliStep acc shift b
      if b &&& 128 = 0 then some (acc', 1)
      else
        match readVarIntRawAux buf E fuel (off+1) (shift+7) acc' with
        | some (v, n) => some (v, n+1)
        | none => none
    else none

/-- `readVarIntRaw(buf, off, end)`: returns the decoded size reinterpreted as
a signed 32-bit value together with the number of bytes consumed, or
`(-1, 0)` when the var-int runs past `E`. -/
def readVarIntRaw (buf : Bytes) (off E : Nat) : Int × Nat :=
  match readVarIntRawAux buf E (E - off) off 0 0 with
  | some (acc, n) => (toInt32 acc, n)
  | none => (-1, 0)

/-- Loop of `scoreAlignment` (FlpParser.ts lines 104-140).  The step count is
instantiated with `limit - off`; every iteration advances `off` by at least
two bytes, so the zero case only occurs with `off ≥ limit`, where the source
loop also stops and returns the final score. -/
def scoreAux (buf : Bytes) (limit E : Nat) : Nat → Nat → Nat → Nat → Nat → Int
  | 0, _, t, _, m => 10 * (t : Int) - 3 * (m : Int)
  | fuel+1, off, t, c, m =>
    if off < limit then
      let id := byteAt buf off
      if id < 64 then
        if id < 32 && !KNOWN_DWORD_IDS id then
          scoreAux buf limit E fuel (off+2) t (c+1) (max m (c+1))
        else scoreAux buf limit E fuel (off+2) t 0 m
      else if id < 128 then scoreAux buf limit E fuel (off+3) t 0 m
      else if id < 192 then scoreAux buf limit E fuel (off+5) t 0 m
      else
        let vi := readVarIntRaw buf (off+1) E
        if 0 ≤ vi.1 ∧ vi.1 < 100000 ∧ (off : Int) + 1 + vi.2 + vi.1 ≤ (E : Int) then
          scoreAux buf limit E fuel (off + 1 + vi.2 + vi.1.toNat) (t+1) 0 m
        else -100
    else 10 * (t : Int) - 3 * (m : Int)

/-- `scoreAlignment(buf, off, end, bytesToCheck)`. -/
def scoreAlignment (buf : Bytes) (off E n : Nat) : Int :=
  scoreAux buf (min (off + n) E) E (min (off + n) E - off) off 0 0 0

/-- A single event (`FlpEvent` interface): id, kind, the original framing
bytes (`header`), and the payload bytes. -/
structure FlpEvent where
  id : Nat
  kind : EventKind
  header : Bytes
  payload : Bytes
deriving DecidableEq

/-- A parsed file (`ParsedFlp` interface). `flVersion` is the detected
version string as a list of character codes. -/
structure ParsedFlp where
  headerChunkBytes : Bytes
  fldtHeaderBytes : Bytes
  events : List FlpEvent
  trailingBytes : Option Bytes
  flVersion : List Nat
  useUnicode : Bool
deriving DecidableEq

/-- The protobufjs `Reader.uint32` used by `BinaryReader.readVarInt`, reading
from absolute position `pos` of the whole buffer.  Each of the first five
bytes contributes its low bits (7,7,7,7,4) and stops the loop when it is in
range and below 128 (an out-of-range read yields `undefined`, and
`undefined < 128` is false in JavaScript); if all five continue, five more
bytes are skipped and the reader throws iff that jumps past the end. -/
def pbUint32 (buf : Bytes) (pos : Nat) : Option (Nat × {p : Nat // pos < p}) :=
  let stop := fun i => decide (pos + i < buf.length) && decide (byteAt buf (pos+i) < 128)
  let v0 := byteAt buf pos &&& 127
  if stop 0 then some (v0, ⟨pos+1, by omega⟩) else
  let v1 := Nat.lor v0 ((byteAt buf (pos+1) &&& 127) <<< 7)
  if stop 1 then some (v1, ⟨pos+2, by omega⟩) else
  let v2 := Nat.lor v1 ((byteAt buf (pos+2) &&& 127) <<< 14)
  if stop 2 then some (v2, ⟨pos+3, by omega⟩) else
  let v3 := Nat.lor v2 ((byteAt buf (pos+3) &&& 127) <<< 21)
  if stop 3 then some (v3, ⟨pos+4, by omega⟩) else
  let v4 := Nat.lor v3 ((byteAt buf (pos+4) &&& 15) <<< 28)
  if stop 4 then some (v4, ⟨pos+5, by omega⟩) else
  if pos + 10 ≤ buf.length then some (v4, ⟨pos+10, by omega⟩) else none

/-- Materialise one event once the parser has fixed its header size and
(nominal) payload size: the header is the original bytes
`[pos, pos+headerSize)`, the payload is read with `readBytes`, which clamps
at the end of the buffer (smart-buffer `readBuffer`). -/
def finishEvent (buf : Bytes) (pos hs ps : Nat)
    (h : pos < buf.length) (hh : 1 ≤ hs) : FlpEvent × {p : Nat // pos < p} :=
  (⟨byteAt buf pos, getEventKind (byteAt buf pos),
    sliceBytes buf pos (pos + hs),
    sliceBytes buf (pos + hs) (min buf.length (pos + hs + ps))⟩,
   ⟨min buf.length (pos + hs + ps), by omega⟩)

/-- One iteration of the event loop of `parseFlp` (lines 202-277): reads the
id byte (`readU8` throws past the end), selects header and payload size by
range — with the look-ahead disambiguation for unknown DWORD-range ids —
and reads the event bytes.  Returns the event and the next position. -/
def parseOneEvent (buf : Bytes) (E pos : Nat) : Option (FlpEvent × {p : Nat // pos < p}) :=
  if h : pos < buf.length then
    let id := byteAt buf pos
    if id < 64 then some (finishEvent buf pos 1 1 h (by omega))
    else if id < 128 then some (finishEvent buf pos 1 2 h (by omega))
    else if id < 192 then
      if KNOWN_DWORD_IDS id then some (finishEvent buf pos 1 4 h (by omega))
      else
        let vi := readVarIntRaw buf (pos + 1) E
        if vi.1 < 0 ∨ 100000 < vi.1 ∨ (E : Int) < (pos : Int) + 1 + vi.2 + vi.1 then
          some (finishEvent buf pos 1 4 h (by omega))
        else if vi.1 = 3 then
          some (finishEvent buf pos 1 4 h (by omega))
        else if scoreAlignment buf (pos + 1 + vi.2 + vi.1.toNat) E 200 >
                scoreAlignment buf (pos + 5) E 200 + 2 then
          some (finishEvent buf pos (1 + vi.2) vi.1.toNat h (by omega))
        else some (finishEvent buf pos 1 4 h (by omega))
    else
      match pbUint32 buf (pos + 1) with
      | some (sz, p2) => some (finishEvent buf pos (p2.val - pos) sz h (by omega))
      | none => none
  else none

/-- Character codes that `String.prototype.trim` removes, restricted to the
7-bit range that `Buffer.toString('ascii')` can produce. -/
def isJsSpace (c : Nat) : Bool :=
  c = 9 || c = 10 || c = 11 || c = 12 || c = 13 || c = 32

/-- `s.trim()` on a list of character codes. -/
def jsTrim (s : List Nat) : List Nat :=
  ((s.dropWhile isJsSpace).reverse.dropWhile isJsSpace).reverse

/-- `payload.toString('ascii').replace(/\0/g, '').trim()`: the ascii decode
clears the high bit of every byte, all NUL characters are removed, then
the result is trimmed. -/
def asciiClean (payload : Bytes) : List Nat :=
  jsTrim ((payload.map (· % 128)).filter (fun c => c ≠ 0))

def isDigitCode (c : Nat) : Bool := 48 ≤ c && c ≤ 57

/-- `s.split('.')` on a list of character codes (46 is the code of a dot). -/
def splitDot : List Nat → List (List Nat)
  | [] => [[]]
  | c :: rest =>
    let r := splitDot rest
    if c = 46 then [] :: r
    else (c :: r.headD []) :: r.tail

/-- Test of the regular expression `^\d+(\.\d+)+$`: every character is a
digit or a dot, splitting on dots gives at least two parts, and every part
is non-empty (hence all-digits). -/
def versionMatch (s : List Nat) : Bool :=
  s.all (fun c => isDigitCode c || c = 46) &&
  decide (2 ≤ (splitDot s).length) &&
  (splitDot s).all (fun p => !p.isEmpty)

/-- `parseInt` on an all-digit string (as used on the regex-matched parts). -/
def parseDec (s : List Nat) : Nat := s.foldl (fun a c => a * 10 + (c - 48)) 0

/-- The `useUnicode` computation of lines 271-274: split the matched version
on dots and require `parts.length >= 2 && (major > 11 || (major == 11 && minor >= 5))`. -/
def unicodeOf (s : List Nat) : Bool :=
  let parts := splitDot s
  decide (2 ≤ parts.length) &&
    (decide (11 < parseDec (parts.getD 0 [])) ||
     (decide (parseDec (parts.getD 0 []) = 11) && decide (5 ≤ parseDec (parts.getD 1 []))))

/-- The sentinel `'0.0.0'` as character codes. -/
def sentinelVer : List Nat := [48, 46, 48, 46, 48]

/-- The FL-version detection step of the event loop (lines 267-276):
on event id 199 (`PROJECT_FL_VERSION`), while `flVersion` is still the
sentinel, a payload whose cleaned ascii form matches the version regex sets
`flVersion` and `useUnicode`. -/
def versionUpdate (v : List Nat) (u : Bool) (id : Nat) (payload : Bytes) :
    List Nat × Bool :=
  if id = 199 ∧ v = sentinelVer then
    let c := asciiClean payload
    if versionMatch c then (c, unicodeOf c) else (v, u)
  else (v, u)

/-- State threaded through the event loop. -/
structure LoopState where
  events : List FlpEvent
  flVersion : List Nat
  useUnicode : Bool
deriving DecidableEq

/-- The event loop (`while (reader.tell() < eventsEnd)`).  The step count is
instantiated with `E - pos`; every successful step advances `pos` by at
least one byte, so the zero case only occurs with `pos ≥ E`, where the
source loop also exits (the `none` in the zero case is unreachable under
that instantiation). -/
def parseEventsLoop (buf : Bytes) (E : Nat) : Nat → Nat → LoopState → Option (LoopState × Nat)
  | 0, pos, st => if pos < E then none else some (st, pos)
  | fuel+1, pos, st =>
    if pos < E then
      match parseOneEvent buf E pos with
      | none => none
      | some (ev, p') =>
        parseEventsLoop buf E fuel p'.val
          ⟨st.events ++ [ev],
           (versionUpdate st.flVersion st.useUnicode ev.id ev.payload).1,
           (versionUpdate st.flVersion st.useUnicode ev.id ev.payload).2⟩
    else some (st, pos)

/-- The container-header phase of `parseFlp` (lines 149-192), in source
order: `FLhd` magic (ascii decode clears high bits), header size 6, the
`i16`/`u16`/`u16` reads, the format range check, the `FLdt` magic, the
`eventsSize` read and the total-length check.  Returns `eventsSize`. -/
def parseHeaderPhase (buf : Bytes) : Option Nat :=
  if (sliceBytes buf 0 4).map (· % 128) = [70, 76, 104, 100] then
    match readU32 buf 4 with
    | some hs =>
      if hs = 6 then
        match readI16 buf 8, readU16 buf 10, readU16 buf 12 with
        | some format, some _, some _ =>
          if -1 ≤ format ∧ format ≤ 80 then
            if (sliceBytes buf 14 18).map (· % 128) = [70, 76, 100, 116] then
              match readU32 buf 18 with
              | some es => if buf.length = 22 + es then some es else none
              | none => none
            else none
          else none
        | _, _, _ => none
      else none
    | none => none
  else none

/-- `parseFlp` (lines 149-293). -/
def parseFlp (buf : Bytes) : Option ParsedFlp :=
  match parseHeaderPhase buf with
  | none => none
  | some es =>
    match parseEventsLoop buf (22 + es) es 22 ⟨[], sentinelVer, false⟩ with
    | none => none
    | some (st, fin) =>
      some { headerChunkBytes := sliceBytes buf 0 14
             fldtHeaderBytes := sliceBytes buf 14 22
             events := st.events
             trailingBytes :=
               if buf.length - fin > 0 then some (sliceBytes buf fin buf.length) else none
             flVersion := st.flVersion
             useUnicode := st.useUnicode }

/-- The protobufjs `Writer.uint32` encoding (used by `writeVarInt`): the
minimal base-128 little-endian encoding of `n >>> 0`, written out by byte
count as the source library does. -/
def encodeVarInt (n0 : Nat) : Bytes :=
  let n := n0 % 4294967296
  if n < 128 then [n]
  else if n < 16384 then [n % 128 + 128, n / 128]
  else if n < 2097152 then [n % 128 + 128, n / 128 % 128 + 128, n / 16384]
  else if n < 268435456 then
    [n % 128 + 128, n / 128 % 128 + 128, n / 16384 % 128 + 128, n / 2097152]
  else
    [n % 128 + 128, n / 128 % 128 + 128, n / 16384 % 128 + 128,
     n / 2097152 % 128 + 128, n / 268435456]

/-- `serializeEvent` (lines 344-359): a non-empty original header is emitted
verbatim; an empty header is rebuilt as the id byte (`writeU8` masks with
0xff) plus, for TEXT/DATA-range ids, the var-int payload size. -/
def serializeEvent (e : FlpEvent) : Bytes :=
  (if e.header.length > 0 then e.header
   else (e.id &&& 255) :: (if 192 ≤ e.id then encodeVarInt e.payload.length else [])) ++
  e.payload

/-- The recomputed `eventsSize` of `serializeFlp` (lines 309-317): the sum of
the serialized event lengths, plus the trailing bytes when present. -/
def totalEventsSize (P : ParsedFlp) : Nat :=
  (P.events.map (fun e => (serializeEvent e).length)).sum +
  (match P.trailingBytes with | some t => t.length | none => 0)

/-- `serializeFlp` (lines 302-334): header chunk verbatim, then the literal
bytes of `'FLdt'`, the recomputed size as `u32` little-endian, every event,
and the trailing bytes. -/
def serializeFlp (P : ParsedFlp) : Bytes :=
  P.headerChunkBytes ++ [70, 76, 100, 116] ++
  u32leBytes (totalEventsSize P % 4294967296) ++
  (P.events.map serializeEvent).flatten ++
  (match P.trailingBytes with | some t => t | none => [])

/-- `patchEvents` (lines 393-419).  The source decides whether to rebuild the
header with the reference test `patched.payload !== event.payload`; reference
identity is not observable on pure values, so it is supplied as the oracle
`sameRef : index → Bool` (`sameRef i = true` means the patcher returned the
very same payload object at index `i`, which in particular implies value
equality — theorems that rely on it take that implication as a hypothesis). -/
def patchEvents (P : ParsedFlp) (patcher : FlpEvent → Nat → FlpEvent)
    (sameRef : Nat → Bool) : ParsedFlp :=
  { P with events := P.events.mapIdx (fun i e =>
      let patched := patcher e i
      if !sameRef i && decide (1 < e.header.length) then
        { patched with
          header := (patched.id &&& 255) :: encodeVarInt patched.payload.length }
      else patched) }

/-- Modelled from the claim's words (C4), for comparison with `scoreAlignment`:
the look-ahead walker as the claim describes it, amended with the size cap —
it returns `none` (rejection) when a TEXT/DATA-range step's var-int is
invalid, decodes to at least 100000, or its payload would extend past the
stream end; otherwise it returns the TEXT/DATA count and the maximum
consecutive-small run. -/
def claimWalk (buf : Bytes) (limit E : Nat) : Nat → Nat → Nat → Nat → Nat → Option (Nat × Nat)
  | 0, _, t, _, m => some (t, m)
  | fuel+1, off, t, c, m =>
    if off < limit then
      let id := byteAt buf off
      if id < 32 then claimWalk buf limit E fuel (off+2) t (c+1) (max m (c+1))
      else if id < 64 then claimWalk buf limit E fuel (off+2) t 0 m
      else if id < 128 then claimWalk buf limit E fuel (off+3) t 0 m
      else if id < 192 then claimWalk buf limit E fuel (off+5) t 0 m
      else
        let vi := readVarIntRaw buf (off+1) E
        if vi.1 < 0 ∨ 100000 ≤ vi.1 ∨ (E : Int) < (off : Int) + 1 + vi.2 + vi.1 then none
        else claimWalk buf limit E fuel (off + 1 + vi.2 + vi.1.toNat) (t+1) 0 m
    else some (t, m)

/-- Score according to the amended claim: `-100` on rejection, otherwise
`10 * textDataCount - 3 * maxConsecutiveSmall`. -/
def claimScore (buf : Bytes) (off E n : Nat) : Int :=
  match claimWalk buf (min (off + n) E) E (min (off + n) E - off) off 0 0 0 with
  | none => -100
  | some p => 10 * (p.1 : Int) - 3 * (p.2 : Int)

/-- Modelled from the claim's words (C4) exactly as frozen: rejection only
when the var-int is invalid (malformed) or its payload would extend past the
stream end — without the 100000 size cap. -/
def claimWalkOrig (buf : Bytes) (limit E : Nat) : Nat → Nat → Nat → Nat → Nat → Option (Nat × Nat)
  | 0, _, t, _, m => some (t, m)
  | fuel+1, off, t, c, m =>
    if off < limit then
      let id := byteAt buf off
      if id < 32 then claimWalkOrig buf limit E fuel (off+2) t (c+1) (max m (c+1))
      else if id < 64 then claimWalkOrig buf limit E fuel (off+2) t 0 m
      else if id < 128 then claimWalkOrig buf limit E fuel (off+3) t 0 m
      else if id < 192 then claimWalkOrig buf limit E fuel (off+5) t 0 m
      else
        let vi := readVarIntRaw buf (off+1) E
        if vi.1 < 0 ∨ (E : Int) < (off : Int) + 1 + vi.2 + vi.1 then none
        else claimWalkOrig buf limit E fuel (off + 1 + vi.2 + vi.1.toNat) (t+1) 0 m
    else some (t, m)

/-- Score according to the claim as frozen (no size cap). -/
def claimScoreOrig (buf : Bytes) (off E n : Nat) : Int :=
  match claimWalkOrig buf (min (off + n) E) E (min (off + n) E - off) off 0 0 0 with
  | none => -100
  | some (t, m) => 10 * (t : Int) - 3 * (m : Int)

/-- Modelled from the claim's words (C7, amended): the container-check
conditions — `FLhd` magic at 0 (compared after the ascii decode clears the
high bit of each byte), header size 6, format in `[-1, 0x50]`, `FLdt` magic
at 14 (same ascii comparison), and total length `22 + eventsSize`. -/
def containerOk (buf : Bytes) : Bool :=
  decide ((sliceBytes buf 0 4).map (· % 128) = [70, 76, 104, 100]) &&
  (match readU32 buf 4 with | some v => decide (v = 6) | none => false) &&
  (match readI16 buf 8 with | some f => decide (-1 ≤ f ∧ f ≤ 80) | none => false) &&
  decide ((sliceBytes buf 14 18).map (· % 128) = [70, 76, 100, 116]) &&
  (match readU32 buf 18 with
   | some es => decide (buf.length = 22 + es)
   | none => false)

/-- The version-string candidate an event contributes in the loop's
FL-version detection: `some` of the cleaned payload when the event has
id 199 and the cleaned payload matches the version regex. -/
def versionCandOf (e : FlpEvent) : Option (List Nat) :=
  if e.id = 199 then
    let c := asciiClean e.payload
    if versionMatch c then some c else none
  else none

/-- Byte length of an event as parsed: framing plus payload. -/
def eventSize (e : FlpEvent) : Nat := e.header.length + e.payload.length

/-- Start offset of event `i` inside the source file: the event stream starts
at 22 and events are contiguous. -/
def regionStart (P : ParsedFlp) (i : Nat) : Nat :=
  22 + ((P.events.take i).map eventSize).sum

/-- A minimal well-formed file: `FLhd`, header size 6, format 0, one channel,
96 PPQ, `FLdt`, zero-length event stream. -/
def fileMin : Bytes :=
  [70, 76, 104, 100, 6, 0, 0, 0, 0, 0, 1, 0, 96, 0,
   70, 76, 100, 116, 0, 0, 0, 0]

/-- A well-formed file with one TEXT event: id 194 (project title), var-int
size 3, payload `ABC`. -/
def fileOneText : Bytes :=
  [70, 76, 104, 100, 6, 0, 0, 0, 0, 0, 1, 0, 96, 0,
   70, 76, 100, 116, 5, 0, 0, 0,
   194, 3, 65, 66, 67]

/-- A well-formed file with two FL-version events (id 199): the first has
payload `'0.0.0\0'`, the second `'12.5\0'`. -/
def fileTwoVersions : Bytes :=
  [70, 76, 104, 100, 6, 0, 0, 0, 0, 0, 1, 0, 96, 0,
   70, 76, 100, 116, 15, 0, 0, 0,
   199, 6, 48, 46, 48, 46, 48, 0,
   199, 5, 49, 50, 46, 53, 0]

/-- A file whose first byte is 0xC6 = 198 (the code of `F` with the high bit
set); the ascii decode of the header magic clears that bit, so the magic
check compares equal although the bytes differ from `'FLhd'`. -/
def fileHighBitFLhd : Bytes :=
  [198, 76, 104, 100, 6, 0, 0, 0, 0, 0, 1, 0, 96, 0,
   70, 76, 100, 116, 0, 0, 0, 0]

/-- A file whose `FLdt` magic carries a high bit (byte 14 is 0xC6 = 198):
accepted by the parser (ascii decode clears the bit) but re-serialized with
the literal `'FLdt'` bytes. -/
def fileHighBitFLdt : Bytes :=
  [70, 76, 104, 100, 6, 0, 0, 0, 0, 0, 1, 0, 96, 0,
   198, 76, 100, 116, 0, 0, 0, 0]

/-- An event stream for the look-ahead counterexample: a TEXT-range id (192)
followed by the var-int `[160, 141, 6]`, which decodes to exactly 100000,
and a 100000-byte payload that fits exactly. -/
def capStream : Bytes := 192 :: 160 :: 141 :: 6 :: List.replicate 100000 0

/-- The parse of `fileOneText` (it succeeds; see `parseFlp_fileOneText`). -/
def parsedOneText : ParsedFlp :=
  (parseFlp fileOneText).getD
    ⟨[], [], [], none, sentinelVer, false⟩

/-- The value `parseFlp fileMin` evaluates to. -/
def parsedMin : ParsedFlp :=
  { headerChunkBytes := [70, 76, 104, 100, 6, 0, 0, 0, 0, 0, 1, 0, 96, 0]
    fldtHeaderBytes := [70, 76, 100, 116, 0, 0, 0, 0]
    events := []
    trailingBytes := none
    flVersion := sentinelVer
    useUnicode := false }

/-- A hand-written `ParsedFlp` whose single event has empty framing (the
spec's model for events synthesized after parsing): id 194, payload `A`. -/
def parsedEmptyHeader : ParsedFlp :=
  { headerChunkBytes := [70, 76, 104, 100, 6, 0, 0, 0, 0, 0, 1, 0, 96, 0]
    fldtHeaderBytes := [70, 76, 100, 116, 0, 0, 0, 0]
    events := [⟨194, .text, [], [65]⟩]
    trailingBytes := none
    flVersion := sentinelVer
    useUnicode := false }

theorem sliceBytes_self (b : Bytes) (a : Nat) : sliceBytes b a a = [] := by
  simp [sliceBytes]

theorem sliceBytes_append (b : Bytes) {a m e : Nat} (h1 : a ≤ m) (h2 : m ≤ e) :
    sliceBytes b a m ++ sliceBytes b m e = sliceBytes b a e := by
  unfold sliceBytes
  have hd : b.drop m = (b.drop a).drop (m - a) := by
    rw [List.drop_drop]; congr 1; omega
  rw [hd]
  have : e - a = (m - a) + (e - m) := by omega
  rw [this, List.take_add]

theorem length_sliceBytes (b : Bytes) (a e : Nat) :
    (sliceBytes b a e).length = min (e - a) (b.length - a) := by
  simp [sliceBytes]

theorem sliceBytes_of_ge_length (b : Bytes) {a e e' : Nat}
    (h : b.length ≤ e) (h' : b.length ≤ e') :
    sliceBytes b a e = sliceBytes b a e' := by
  unfold sliceBytes
  rw [List.take_of_length_le, List.take_of_length_le] <;> simp <;> omega

theorem sliceBytes_full (b : Bytes) : sliceBytes b 0 b.length = b := by
  simp [sliceBytes]

theorem sliceBytes_cons (b : Bytes) {a e : Nat} (h : a < b.length) (h2 : a < e) :
    sliceBytes b a e = b.getD a 0 :: sliceBytes b (a+1) e := by
  unfold sliceBytes
  rw [List.drop_eq_getElem_cons h]
  have : e - a = (e - (a+1)) + 1 := by omega
  rw [this, List.take_succ_cons, List.getD_eq_getElem b 0 h]

theorem serializeEvent_of_header_ne (e : FlpEvent) (h : e.header ≠ []) :
    serializeEvent e = e.header ++ e.payload := by
  unfold serializeEvent
  rw [if_pos]
  exact List.length_pos.mpr h

theorem finishEvent_spec (buf : Bytes) (pos hs ps : Nat)
    (h : pos < buf.length) (hh : 1 ≤ hs) :
    serializeEvent (finishEvent buf pos hs ps h hh).1 =
      sliceBytes buf pos ((finishEvent buf pos hs ps h hh).2 : Nat) ∧
    ((finishEvent buf pos hs ps h hh).2 : Nat) ≤ buf.length ∧
    (finishEvent buf pos hs ps h hh).1.header ≠ [] := by
  have hne : sliceBytes buf pos (pos + hs) ≠ [] := by
    intro hc
    have := congrArg List.length hc
    rw [length_sliceBytes] at this
    simp at this
    omega
  refine ⟨?_, by simp [finishEvent], by simpa [finishEvent] using hne⟩
  show serializeEvent
      ⟨byteAt buf pos, getEventKind (byteAt buf pos),
        sliceBytes buf pos (pos + hs),
        sliceBytes buf (pos + hs) (min buf.length (pos + hs + ps))⟩ =
      sliceBytes buf pos (min buf.length (pos + hs + ps))
  rw [serializeEvent_of_header_ne _ (by simpa using hne)]
  simp only
  rcases le_or_lt (pos + hs) (min buf.length (pos + hs + ps)) with hle | hlt
  · exact sliceBytes_append buf (by omega) hle
  · have h1 : buf.length < pos + hs := by omega
    have h2 : min buf.length (pos + hs + ps) = buf.length := by omega
    rw [h2]
    have hp0 : sliceBytes buf (pos + hs) buf.length = [] := by
      unfold sliceBytes
      rw [List.take_eq_nil_iff]
      right; simp; omega
    rw [hp0, List.append_nil]
    exact sliceBytes_of_ge_length buf (by omega) (by omega)

theorem parseOneEvent_spec (buf : Bytes) (E pos : Nat)
    (x : FlpEvent × {p : Nat // pos < p}) (hx : parseOneEvent buf E pos = some x) :
    serializeEvent x.1 = sliceBytes buf pos x.2.val ∧
    x.2.val ≤ buf.length ∧ x.1.header ≠ [] := by
  unfold parseOneEvent at hx
  split at hx
  case isFalse => exact absurd hx (by simp)
  dsimp only at hx
  repeat' split at hx
  all_goals
    first
      | exact Option.some.inj hx ▸ finishEvent_spec ..
      | exact absurd hx (by simp)

theorem parseEventsLoop_spec (buf : Bytes) (fuel : Nat) :
    ∀ (pos : Nat) (st : LoopState) (out : LoopState × Nat),
    pos ≤ buf.length →
    parseEventsLoop buf buf.length fuel pos st = some out →
    ∃ tail : List FlpEvent,
      out.1.events = st.events ++ tail ∧
      (tail.map serializeEvent).flatten = sliceBytes buf pos out.2 ∧
      out.2 = buf.length ∧
      (out.1.flVersion, out.1.useUnicode) =
        tail.foldl (fun p e => versionUpdate p.1 p.2 e.id e.payload)
          (st.flVersion, st.useUnicode) ∧
      ∀ e ∈ tail, e.header ≠ [] := by
  induction fuel with
  | zero =>
    intro pos st out hpos hloop
    unfold parseEventsLoop at hloop
    split at hloop
    · exact absurd hloop (by simp)
    · obtain rfl : (st, pos) = out := Option.some.inj hloop
      exact ⟨[], by simp, by simp [sliceBytes_self], by omega, by simp, by simp⟩
  | succ fuel ih =>
    intro pos st out hpos hloop
    unfold parseEventsLoop at hloop
    split at hloop
    case isTrue hlt =>
      cases hone : parseOneEvent buf buf.length pos with
      | none => rw [hone] at hloop; exact absurd hloop (by simp)
      | some x =>
        obtain ⟨ev, p'⟩ := x
        rw [hone] at hloop
        simp only at hloop
        obtain ⟨hser, hle, hhd⟩ := parseOneEvent_spec buf buf.length pos (ev, p') hone
        obtain ⟨tail, ht1, ht2, ht3, ht4, ht5⟩ := ih p'.val _ out hle hloop
        refine ⟨ev :: tail, ?_, ?_, ht3, ?_, ?_⟩
        · rw [ht1]; simp
        · simp only [List.map_cons, List.flatten_cons]
          rw [ht2, hser]
          exact sliceBytes_append buf (le_of_lt p'.2) (ht3 ▸ hle)
        · rw [ht4, List.foldl_cons]
        · intro e he
          rcases List.mem_cons.mp he with rfl | hmem
          · exact hhd
          · exact ht5 e hmem
    case isFalse h =>
      obtain rfl : (st, pos) = out := Option.some.inj hloop
      exact ⟨[], by simp, by simp [sliceBytes_self], by omega, by simp, by simp⟩

theorem parseHeaderPhase_len (buf : Bytes) (es : Nat) (h : parseHeaderPhase buf = some es) :
    buf.length = 22 + es ∧ readU32 buf 18 = some es := by
  unfold parseHeaderPhase at h
  repeat' split at h
  all_goals simp_all

theorem parseFlp_spec (F : Bytes) (P : ParsedFlp) (hp : parseFlp F = some P) :
    P.headerChunkBytes = sliceBytes F 0 14 ∧
    (P.events.map serializeEvent).flatten = sliceBytes F 22 F.length ∧
    P.trailingBytes = none ∧
    readU32 F 18 = some (F.length - 22) ∧ 22 ≤ F.length ∧
    (P.flVersion, P.useUnicode) =
      P.events.foldl (fun p e => versionUpdate p.1 p.2 e.id e.payload)
        (sentinelVer, false) ∧
    ∀ e ∈ P.events, e.header ≠ [] := by
  unfold parseFlp at hp
  cases hh : parseHeaderPhase F with
  | none => rw [hh] at hp; exact absurd hp (by simp)
  | some es =>
    rw [hh] at hp
    simp only at hp
    obtain ⟨hlen, hread⟩ := parseHeaderPhase_len F es hh
    cases hloop : parseEventsLoop F (22 + es) es 22 ⟨[], sentinelVer, false⟩ with
    | none => rw [hloop] at hp; exact absurd hp (by simp)
    | some out =>
      obtain ⟨st, fin⟩ := out
      rw [hloop] at hp
      simp only at hp
      rw [hlen.symm] at hloop
      obtain ⟨tail, ht1, ht2, ht3, ht4, ht5⟩ :=
        parseEventsLoop_spec F es 22 ⟨[], sentinelVer, false⟩ (st, fin)
          (by omega) hloop
      simp only at ht1 ht2 ht3 ht4
      obtain rfl : _ = P := Option.some.inj hp
      subst ht3
      simp only [List.nil_append] at ht1
      subst ht1
      refine ⟨rfl, ht2, by simp, by rw [hread]; congr 1; omega, by omega, ht4, ht5⟩

theorem byteAt_lt_256 (b : Bytes) (i : Nat) : byteAt b i < 256 := by
  unfold byteAt; omega

theorem byteAt_of_isBytes {b : Bytes} (hb : isBytes b) {k : Nat} (hk : k < b.length) :
    byteAt b k = b.getD k 0 := by
  unfold byteAt
  have hmem : b.getD k 0 ∈ b := by
    rw [List.getD_eq_getElem b 0 hk]
    exact List.getElem_mem hk
  exact Nat.mod_eq_of_lt (hb _ hmem)

theorem sliceBytes_u32 (F : Bytes) (hb : isBytes F) {v : Nat}
    (h : readU32 F 18 = some v) (hlen : 22 ≤ F.length) :
    u32leBytes v = sliceBytes F 18 22 ∧ v < 4294967296 := by
  unfold readU32 at h
  rw [if_pos (by omega)] at h
  have hv := (Option.some.inj h).symm
  simp only [Nat.reduceAdd] at hv
  have h18 := byteAt_lt_256 F 18
  have h19 := byteAt_lt_256 F 19
  have h20 := byteAt_lt_256 F 20
  have h21 := byteAt_lt_256 F 21
  constructor
  · rw [sliceBytes_cons F (by omega) (by omega), sliceBytes_cons F (by omega) (by omega),
        sliceBytes_cons F (by omega) (by omega), sliceBytes_cons F (by omega) (by omega),
        sliceBytes_self]
    rw [← byteAt_of_isBytes hb (k := 18) (by omega), ← byteAt_of_isBytes hb (k := 19) (by omega),
        ← byteAt_of_isBytes hb (k := 20) (by omega), ← byteAt_of_isBytes hb (k := 21) (by omega)]
    unfold u32leBytes
    have e1 : v % 256 = byteAt F 18 := by omega
    have e2 : v / 256 % 256 = byteAt F 19 := by omega
    have e3 : v / 65536 % 256 = byteAt F 20 := by omega
    have e4 : v / 16777216 % 256 = byteAt F 21 := by omega
    rw [e1, e2, e3, e4]
  · omega

/-- C1 (amended): for every byte buffer `F` accepted by `parseFlp` whose four
bytes at offset 14 are literally `'FLdt'` (the parser's magic check tolerates
bytes that only match after their high bit is cleared, while `serializeFlp`
always emits the literal magic), `serializeFlp` returns `F` byte for byte. -/
theorem c1_roundtrip (F : Bytes) (P : ParsedFlp) (hp : parseFlp F = some P)
    (hb : isBytes F) (hm : sliceBytes F 14 18 = [70, 76, 100, 116]) :
    serializeFlp P = F := by
  obtain ⟨h014, hflat, htrail, hread, h22, _, _⟩ := parseFlp_spec F P hp
  obtain ⟨hu32, hlt⟩ := sliceBytes_u32 F hb hread h22
  have hsum : (P.events.map fun e => (serializeEvent e).length).sum = F.length - 22 := by
    have h1 : (P.events.map fun e => (serializeEvent e).length).sum =
        ((P.events.map serializeEvent).map List.length).sum := by
      rw [List.map_map]; rfl
    rw [h1, ← List.length_flatten, hflat, length_sliceBytes]
    omega
  have hsz : totalEventsSize P = F.length - 22 := by
    unfold totalEventsSize
    rw [htrail, hsum]
    rfl
  unfold serializeFlp
  rw [htrail, hsz, Nat.mod_eq_of_lt hlt, hu32, hflat, h014, ← hm]
  rw [List.append_nil, List.append_assoc, List.append_assoc]
  rw [sliceBytes_append F (by omega) (by omega)]
  rw [sliceBytes_append F (by omega) (by omega)]
  rw [sliceBytes_append F (by omega) (by omega)]
  exact sliceBytes_full F

/-- C1, counterexample to the claim as stated: `fileHighBitFLdt` is accepted
by `parseFlp` (the ascii decode of the magic clears the high bit of byte 14,
198 = 0xC6), but serializing the parse yields `fileMin`, which differs from
the input at byte 14. -/
theorem c1_roundtrip_cex :
    (parseFlp fileHighBitFLdt).map serializeFlp = some fileMin ∧
    fileMin ≠ fileHighBitFLdt := by
  refine ⟨by decide, by decide⟩

/-- C1, witness: the amended round-trip applied to the minimal well-formed
file. -/
theorem c1_roundtrip_witness : (parseFlp fileMin).map serializeFlp = some fileMin := by
  rcases hp : parseFlp fileMin with _ | P
  · exact absurd hp (by decide)
  · rw [Option.map_some']
    rw [c1_roundtrip fileMin P hp (by decide) (by decide)]

/-- C10: for every input buffer on which `parseFlp` succeeds, the returned
`trailingBytes` is empty (`undefined`): the container check forces the
buffer length to equal `22 + eventsSize`, so the event loop consumes the
buffer exactly to its end and nothing remains. -/
theorem c10_trailing_empty (F : Bytes) (P : ParsedFlp) (hp : parseFlp F = some P) :
    P.trailingBytes = none :=
  (parseFlp_spec F P hp).2.2.1

/-- C10, witness: applied to the one-event file. -/
theorem c10_trailing_empty_witness : parsedMin.trailingBytes = none :=
  c10_trailing_empty fileMin parsedMin (by decide)

theorem versionUpdate_absorb (v : List Nat) (u : Bool) (id : Nat) (pl : Bytes)
    (h : v ≠ sentinelVer) : versionUpdate v u id pl = (v, u) := by
  unfold versionUpdate
  rw [if_neg (by tauto)]

theorem versionFold_absorb (evs : List FlpEvent) (v : List Nat) (u : Bool)
    (h : v ≠ sentinelVer) :
    evs.foldl (fun p e => versionUpdate p.1 p.2 e.id e.payload) (v, u) = (v, u) := by
  induction evs with
  | nil => rfl
  | cons e evs ih =>
    rw [List.foldl_cons]
    show evs.foldl _ (versionUpdate v u e.id e.payload) = _
    rw [versionUpdate_absorb v u e.id e.payload h]
    exact ih

theorem versionUpdate_sentinel (u : Bool) (e : FlpEvent) :
    versionUpdate sentinelVer u e.id e.payload =
      match versionCandOf e with
      | some c => (c, unicodeOf c)
      | none => (sentinelVer, u) := by
  unfold versionUpdate versionCandOf
  by_cases h : e.id = 199
  · rw [if_pos ⟨h, rfl⟩, if_pos h]
    cases hv : versionMatch (asciiClean e.payload) <;> simp [hv]
  · rw [if_neg (by tauto), if_neg h]

theorem versionFold_spec (evs : List FlpEvent) :
    evs.foldl (fun p e => versionUpdate p.1 p.2 e.id e.payload) (sentinelVer, false) =
      match (evs.filterMap versionCandOf).find? (fun c => decide (c ≠ sentinelVer)) with
      | some c => (c, unicodeOf c)
      | none => (sentinelVer, false) := by
  induction evs with
  | nil => rfl
  | cons e evs ih =>
    rw [List.foldl_cons, List.filterMap_cons]
    show evs.foldl _ (versionUpdate sentinelVer false e.id e.payload) = _
    rw [versionUpdate_sentinel false e]
    cases hc : versionCandOf e with
    | none => exact ih
    | some c =>
      by_cases hcs : c = sentinelVer
      · subst hcs
        have hu : unicodeOf sentinelVer = false := by decide
        simp only [hu]
        rw [ih, List.find?_cons_of_neg _ (by simp)]
      · rw [versionFold_absorb evs c (unicodeOf c) hcs,
            List.find?_cons_of_pos _ (by simpa using hcs)]

/-- C5 (amended): `flVersion` and `useUnicode` are determined by the first
id-199 event whose cleaned payload matches the version pattern *and differs
from the sentinel `'0.0.0'`; a matching event whose version string is
exactly `'0.0.0'` rewrites the sentinel with itself and leaves the latch
open, so a later matching event can still set both values (in all other
cases later matching events change nothing). -/
theorem c5_version_latch (F : Bytes) (P : ParsedFlp) (hp : parseFlp F = some P) :
    (P.flVersion, P.useUnicode) =
      match (P.events.filterMap versionCandOf).find? (fun c => decide (c ≠ sentinelVer)) with
      | some c => (c, unicodeOf c)
      | none => (sentinelVer, false) := by
  rw [(parseFlp_spec F P hp).2.2.2.2.2.1, versionFold_spec]

/-- C5, counterexample to the claim as stated: in `fileTwoVersions` the first
matching FL-version event carries the string `'0.0.0'`, yet the parse
reports the *second* matching event's string `'12.5'` (with `useUnicode`
true) — the first match did not fix the values. -/
theorem c5_version_cex :
    (parseFlp fileTwoVersions).map (fun p => (p.flVersion, p.useUnicode)) =
      some ([49, 50, 46, 53], true) ∧
    (parseFlp fileTwoVersions).map (fun p => (p.events.filterMap versionCandOf).head?) =
      some (some sentinelVer) :=
  ⟨by decide, by decide⟩

/-- C5, witness: the amended characterization applied to the minimal file. -/
theorem c5_version_latch_witness :
    (parsedMin.flVersion, parsedMin.useUnicode) =
      match (parsedMin.events.filterMap versionCandOf).find?
          (fun c => decide (c ≠ sentinelVer)) with
      | some c => (c, unicodeOf c)
      | none => (sentinelVer, false) :=
  c5_version_latch fileMin parsedMin (by decide)

theorem flatten_region (F : Bytes) (L : List Bytes) :
    ∀ (a i : Nat) (l : Bytes),
    L.flatten = sliceBytes F a (a + (L.map List.length).sum) →
    a + (L.map List.length).sum ≤ F.length →
    L[i]? = some l →
    sliceBytes F (a + ((L.take i).map List.length).sum)
      (a + ((L.take i).map List.length).sum + l.length) = l := by
  induction L with
  | nil => intro a i l _ _ h; simp at h
  | cons l0 L ih =>
    intro a i l hflat hbound hget
    have hsum : ((l0 :: L).map List.length).sum = l0.length + (L.map List.length).sum := by
      simp
    cases i with
    | zero =>
      obtain rfl : l0 = l := by simpa using hget
      simp only [List.take_zero, List.map_nil, List.sum_nil, Nat.add_zero]
      have h1 := congrArg (List.take l0.length) hflat
      rw [List.flatten_cons, List.take_left] at h1
      refine Eq.trans ?_ h1.symm
      unfold sliceBytes
      rw [List.take_take]
      congr 1
      omega
    | succ j =>
      have h2 := congrArg (List.drop l0.length) hflat
      rw [List.flatten_cons, List.drop_left] at h2
      unfold sliceBytes at h2
      rw [List.drop_take, List.drop_drop] at h2
      have h3 : L.flatten =
          sliceBytes F (a + l0.length) (a + l0.length + (L.map List.length).sum) := by
        rw [h2]
        unfold sliceBytes
        rw [show a + ((l0 :: L).map List.length).sum - a - l0.length =
              a + l0.length + (L.map List.length).sum - (a + l0.length) from by omega]
      have hget' : L[j]? = some l := by simpa using hget
      have hih := ih (a + l0.length) j l h3 (by omega) hget'
      have hts : (((l0 :: L).take (j+1)).map List.length).sum =
          l0.length + ((L.take j).map List.length).sum := by
        simp
      rw [hts]
      simp only [← Nat.add_assoc]
      exact hih

/-- C2 (amended): for every parsed file and every per-event transform, if at
index `i` the transform returns an event whose `id` and `payload` are
referentially identical to the original *and whose framing is unchanged*
(the source keeps whatever `header` the transform returned, so a transform
that rewrites the framing while keeping `id`/`payload` breaks the property
as frozen), the bytes `serializeFlp` emits for that event are exactly the
original event's region — framing followed by payload — in the source
buffer. -/
theorem c2_conservative (F : Bytes) (P : ParsedFlp)
    (patcher : FlpEvent → Nat → FlpEvent) (sameRef : Nat → Bool)
    (i : Nat) (e : FlpEvent)
    (hp : parseFlp F = some P) (he : P.events[i]? = some e)
    (hs : sameRef i = true)
    (_hid : (patcher e i).id = e.id)
    (hhd : (patcher e i).header = e.header)
    (hpl : (patcher e i).payload = e.payload) :
    ((patchEvents P patcher sameRef).events[i]?).map serializeEvent =
      some (sliceBytes F (regionStart P i) (regionStart P i + eventSize e)) := by
  obtain ⟨_, hflat, _, _, h22, _, hne⟩ := parseFlp_spec F P hp
  have hpe : (patchEvents P patcher sameRef).events[i]? = some (patcher e i) := by
    unfold patchEvents
    simp only [List.getElem?_mapIdx, he, Option.map_some']
    rw [hs]
    rfl
  rw [hpe, Option.map_some']
  have hne_e : e.header ≠ [] := hne e (List.getElem?_mem he)
  have hser : serializeEvent (patcher e i) = e.header ++ e.payload := by
    rw [serializeEvent_of_header_ne _ (by rw [hhd]; exact hne_e), hhd, hpl]
  have hsere : serializeEvent e = e.header ++ e.payload :=
    serializeEvent_of_header_ne e hne_e
  have hsum : ((P.events.map serializeEvent).map List.length).sum = F.length - 22 := by
    rw [← List.length_flatten, hflat, length_sliceBytes]
    omega
  have hflat' : (P.events.map serializeEvent).flatten =
      sliceBytes F 22 (22 + ((P.events.map serializeEvent).map List.length).sum) := by
    rw [hflat, hsum]
    congr 1
    omega
  have hget : (P.events.map serializeEvent)[i]? = some (serializeEvent e) := by
    rw [List.getElem?_map, he, Option.map_some']
  have hreg := flatten_region F (P.events.map serializeEvent) 22 i (serializeEvent e)
    hflat' (by omega) hget
  have hcong : (P.events.take i).map (List.length ∘ serializeEvent) =
      (P.events.take i).map eventSize :=
    List.map_eq_map_iff.mpr (fun e' he' => by
      have hne' := hne e' (List.take_subset i P.events he')
      rw [Function.comp_apply, serializeEvent_of_header_ne e' hne']
      simp [eventSize])
  have hpre : (((P.events.map serializeEvent).take i).map List.length).sum =
      ((P.events.take i).map eventSize).sum := by
    rw [← List.map_take, List.map_map, hcong]
  have hlen : (serializeEvent e).length = eventSize e := by
    rw [hsere]; simp [eventSize]
  rw [hpre, hlen] at hreg
  rw [hser, ← hsere]
  exact congrArg some hreg.symm

/-- C2, counterexample to the claim as stated: a transform that returns the
original `id` and `payload` (referentially identical) but replaces the
`header` field — `patchEvents` keeps the returned header, so the serialized
event bytes `[0,0,65,66,67]` differ from the original region bytes
`[194,3,65,66,67]` of `fileOneText`. -/
theorem c2_conservative_cex :
    ((patchEvents parsedOneText (fun e _ => { e with header := [0, 0] })
        (fun _ => true)).events[0]?).map serializeEvent = some [0, 0, 65, 66, 67] ∧
    (parsedOneText.events[0]?).map (fun e => e.header ++ e.payload) =
      some [194, 3, 65, 66, 67] ∧
    ([0, 0, 65, 66, 67] : Bytes) ≠ [194, 3, 65, 66, 67] :=
  ⟨by decide, by decide, by decide⟩

/-- C2, witness: the amended statement applied to the identity transform on
the one-event file. -/
theorem c2_conservative_witness :
    ((patchEvents parsedOneText (fun e _ => e) (fun _ => true)).events[0]?).map
        serializeEvent =
      some (sliceBytes fileOneText (regionStart parsedOneText 0)
        (regionStart parsedOneText 0 +
          eventSize ⟨194, .text, [194, 3], [65, 66, 67]⟩)) :=
  c2_conservative fileOneText parsedOneText (fun e _ => e) (fun _ => true) 0
    ⟨194, .text, [194, 3], [65, 66, 67]⟩ (by decide) (by decide) rfl rfl rfl rfl

/-- C6 (amended): for an event whose original framing is longer than one
byte, `patchEvents` keeps the event exactly as the transform returned it
whenever the returned payload is referentially identical to the original —
even when the id changed (the source only tests payload identity) — and
otherwise rebuilds the framing as the returned id byte followed by the
minimal var-int encoding of the returned payload's length. -/
theorem c6_framing_rule (P : ParsedFlp) (patcher : FlpEvent → Nat → FlpEvent)
    (sameRef : Nat → Bool) (i : Nat) (e : FlpEvent)
    (he : P.events[i]? = some e) (hlen : 1 < e.header.length) :
    (sameRef i = true →
      (patchEvents P patcher sameRef).events[i]? = some (patcher e i)) ∧
    (sameRef i = false →
      (patchEvents P patcher sameRef).events[i]? =
        some { patcher e i with
               header := ((patcher e i).id &&& 255) ::
                         encodeVarInt (patcher e i).payload.length }) := by
  unfold patchEvents
  simp only [List.getElem?_mapIdx, he, Option.map_some']
  constructor
  · intro hs; rw [hs]; rfl
  · intro hs; rw [hs]; simp [hlen]

/-- C6, counterexample to the claim as stated: a transform that changes only
the id (payload referentially identical) — the claim mandates rebuilding the
framing as `[200] ++ VLI(3) = [200, 3]`, but `patchEvents` keeps the original
framing `[194, 3]`. -/
theorem c6_framing_cex :
    ((patchEvents parsedOneText (fun e _ => { e with id := 200 })
        (fun _ => true)).events[0]?).map FlpEvent.header = some [194, 3] ∧
    ((patchEvents parsedOneText (fun e _ => { e with id := 200 })
        (fun _ => true)).events[0]?).map FlpEvent.id = some 200 ∧
    ([194, 3] : Bytes) ≠ (200 &&& 255) :: encodeVarInt 3 :=
  ⟨by decide, by decide, by decide⟩

/-- C6, witness: the amended rule applied to an id-only transform (payload
kept, so the event is returned unchanged by the patcher). -/
theorem c6_framing_rule_witness :
    (patchEvents parsedOneText (fun e _ => { e with id := 200 })
      (fun _ => true)).events[0]? =
      some ⟨200, .text, [194, 3], [65, 66, 67]⟩ :=
  (c6_framing_rule parsedOneText (fun e _ => { e with id := 200 }) (fun _ => true)
    0 ⟨194, .text, [194, 3], [65, 66, 67]⟩ (by decide) (by decide)).1 rfl

/-- C9 (amended): `getEventKind` returns `text` for the DATA-range name ids
239 and 241, but returns `data` for 231: the explicit `EVENT_KIND` mapping —
which records 231 (`DISPLAY_GROUP_NAME`) as `data` — is consulted before the
`NEW_TEXT_IDS` fallback. -/
theorem c9_new_text_ids :
    getEventKind 239 = EventKind.text ∧ getEventKind 241 = EventKind.text ∧
    getEventKind 231 = EventKind.data := by decide

/-- C9, counterexample to the claim as stated: `getEventKind 231` is `data`,
not `text`. -/
theorem c9_kind_cex : getEventKind 231 ≠ EventKind.text := by decide

theorem readU32_at_u32leBytes (A R : Bytes) (v : Nat) (hA : A.length = 18)
    (hv : v < 4294967296) :
    readU32 (A ++ (u32leBytes v ++ R)) 18 = some v := by
  unfold readU32
  rw [if_pos (by simp [hA, u32leBytes]; omega)]
  have hb : ∀ i, i < 4 → byteAt (A ++ (u32leBytes v ++ R)) (18 + i) =
      (u32leBytes v).getD i 0 % 256 := by
    intro i hi
    unfold byteAt
    rw [show (18 : Nat) + i = A.length + i from by omega,
        List.getD_append_right A _ 0 (A.length + i) (by omega),
        show A.length + i - A.length = i from by omega,
        List.getD_append _ R 0 i (by simp [u32leBytes]; omega)]
  rw [hb 0 (by omega), hb 1 (by omega), hb 2 (by omega), hb 3 (by omega)]
  unfold u32leBytes
  simp only [List.getD_cons_zero, List.getD_cons_succ]
  congr 1
  omega

/-- C8 (amended): for every `ParsedFlp` whose header chunk is the usual 14
bytes and whose recomputed event size fits in 32 bits, the little-endian u32
at offset 18 of `serializeFlp`'s output equals the sum of the *serialized*
event lengths plus the trailing-bytes length, and the output's total length
is 22 plus that sum.  For events with non-empty framing the serialized
length is exactly framing-length + payload-length, as the claim words it;
an event with empty framing (synthesized after parsing) is emitted with a
rebuilt framing, so the claim's framing+payload sum undercounts it. -/
theorem c8_size_field (P : ParsedFlp) (h14 : P.headerChunkBytes.length = 14)
    (hsz : totalEventsSize P < 4294967296) :
    readU32 (serializeFlp P) 18 = some (totalEventsSize P) ∧
    (serializeFlp P).length = 22 + totalEventsSize P ∧
    ∀ e ∈ P.events, e.header ≠ [] → (serializeEvent e).length = eventSize e := by
  refine ⟨?_, ?_, ?_⟩
  · have hre : serializeFlp P =
        (P.headerChunkBytes ++ [70, 76, 100, 116]) ++
          (u32leBytes (totalEventsSize P % 4294967296) ++
            ((P.events.map serializeEvent).flatten ++
              (match P.trailingBytes with | some t => t | none => []))) := by
      unfold serializeFlp
      simp [List.append_assoc]
    rw [hre, Nat.mod_eq_of_lt hsz]
    exact readU32_at_u32leBytes _ _ _ (by simp [h14]) hsz
  · show (P.headerChunkBytes ++ [70, 76, 100, 116] ++
      u32leBytes (totalEventsSize P % 4294967296) ++
      (P.events.map serializeEvent).flatten ++
      (match P.trailingBytes with | some t => t | none => [])).length = _
    have hfl : (P.events.map serializeEvent).flatten.length =
        (P.events.map fun e => (serializeEvent e).length).sum := by
      rw [List.length_flatten, List.map_map]; rfl
    have htr : (match P.trailingBytes with | some t => t | none => ([] : Bytes)).length =
        (match P.trailingBytes with | some t => t.length | none => 0) := by
      cases P.trailingBytes <;> rfl
    simp only [List.length_append, hfl, htr, h14, u32leBytes, totalEventsSize]
    simp
    omega
  · intro e _ hne
    rw [serializeEvent_of_header_ne e hne, List.length_append]
    rfl

/-- C8, counterexample to the claim as stated: a `ParsedFlp` whose single
event has empty framing (id 194, payload `[65]`): the length field in the
output is 3 (the serializer rebuilds the framing `[194, 1]`), while the sum
of framing-length + payload-length over events plus trailing is 1. -/
theorem c8_size_cex :
    readU32 (serializeFlp parsedEmptyHeader) 18 = some 3 ∧
    ((parsedEmptyHeader.events.map (fun e => e.header.length + e.payload.length)).sum = 1) ∧
    (3 : Nat) ≠ 1 :=
  ⟨by decide, by decide, by decide⟩

/-- C8, witness: the amended statement applied to the parse of the one-event
file. -/
theorem c8_size_field_witness :
    readU32 (serializeFlp parsedOneText) 18 = some (totalEventsSize parsedOneText) ∧
    (serializeFlp parsedOneText).length = 22 + totalEventsSize parsedOneText ∧
    ∀ e ∈ parsedOneText.events, e.header ≠ [] →
      (serializeEvent e).length = eventSize e :=
  c8_size_field parsedOneText (by decide) (by decide)

theorem parseHeaderPhase_isSome (buf : Bytes) :
    (parseHeaderPhase buf).isSome = containerOk buf := by
  rcases Nat.lt_or_ge buf.length 22 with hlen | hlen
  · have h18 : readU32 buf 18 = none := by unfold readU32; rw [if_neg (by omega)]
    have hco : containerOk buf = false := by
      unfold containerOk; rw [h18]; simp
    rw [hco]
    unfold parseHeaderPhase
    repeat' split
    all_goals simp_all
  · obtain ⟨v4, hv4⟩ : ∃ v, readU32 buf 4 = some v := by
      unfold readU32; rw [if_pos (by omega)]; exact ⟨_, rfl⟩
    obtain ⟨f8, hf8⟩ : ∃ v, readI16 buf 8 = some v := by
      unfold readI16 readU16; rw [if_pos (by omega)]; exact ⟨_, rfl⟩
    obtain ⟨v10, hv10⟩ : ∃ v, readU16 buf 10 = some v := by
      unfold readU16; rw [if_pos (by omega)]; exact ⟨_, rfl⟩
    obtain ⟨v12, hv12⟩ : ∃ v, readU16 buf 12 = some v := by
      unfold readU16; rw [if_pos (by omega)]; exact ⟨_, rfl⟩
    obtain ⟨v18, hv18⟩ : ∃ v, readU32 buf 18 = some v := by
      unfold readU32; rw [if_pos (by omega)]; exact ⟨_, rfl⟩
    unfold parseHeaderPhase containerOk
    rw [hv4, hf8, hv10, hv12, hv18]
    by_cases hm1 : (sliceBytes buf 0 4).map (· % 128) = [70, 76, 104, 100] <;>
      by_cases h6 : v4 = 6 <;>
      by_cases hf : -1 ≤ f8 ∧ f8 ≤ 80 <;>
      by_cases hm2 : (sliceBytes buf 14 18).map (· % 128) = [70, 76, 100, 116] <;>
      by_cases hl : buf.length = 22 + v18 <;>
      simp_all
    all_goals
      have hnf : ¬(-1 ≤ f8 ∧ f8 ≤ 80) := fun hAnd => absurd (hf hAnd.1) (by omega)
      rw [if_neg hnf]
      cases hd1 : decide ((-1 : Int) ≤ f8) <;> cases hd2 : decide (f8 ≤ 80) <;>
        simp_all <;> omega

/-- C7 (amended): the container phase of `parseFlp` succeeds exactly when the
claim's five conditions hold, with the magic comparisons taken after
clearing the high bit of each byte (the ascii decode used by the source
unsets it, so e.g. a first byte of 0xC6 passes the `FLhd` check); and when
any condition fails, `parseFlp` returns no `ParsedFlp`. -/
theorem c7_container_checks (buf : Bytes) :
    (parseHeaderPhase buf).isSome = containerOk buf ∧
    (containerOk buf = false → parseFlp buf = none) := by
  refine ⟨parseHeaderPhase_isSome buf, fun hc => ?_⟩
  have h := parseHeaderPhase_isSome buf
  rw [hc] at h
  cases hh : parseHeaderPhase buf with
  | some es => rw [hh] at h; simp at h
  | none => unfold parseFlp; rw [hh]

/-- C7, counterexample to the claim as stated: the first four bytes of
`fileHighBitFLhd` are `[198, 76, 104, 100]`, not `'FLhd'`, yet `parseFlp`
accepts the file (the ascii decode clears the high bit of byte 0 before the
comparison). -/
theorem c7_container_cex :
    sliceBytes fileHighBitFLhd 0 4 ≠ [70, 76, 104, 100] ∧
    (parseFlp fileHighBitFLhd).isSome = true :=
  ⟨by decide, by decide⟩

/-- C7, witness: a three-byte buffer violates the conditions and `parseFlp`
rejects it. -/
theorem c7_container_checks_witness : parseFlp [1, 2, 3] = none :=
  (c7_container_checks [1, 2, 3]).2 (by decide)

theorem readVarIntRawAux_pos (buf : Bytes) (E : Nat) :
    ∀ fuel off shift acc v n,
    readVarIntRawAux buf E fuel off shift acc = some (v, n) → 1 ≤ n := by
  intro fuel
  induction fuel with
  | zero => intro off shift acc v n h; exact absurd h (by simp [readVarIntRawAux])
  | succ fuel ih =>
    intro off shift acc v n h
    unfold readVarIntRawAux at h
    split at h
    case isFalse => exact absurd h (by simp)
    dsimp only at h
    split at h
    · obtain ⟨-, rfl⟩ := Prod.mk.injEq .. ▸ Option.some.inj h
      omega
    · split at h
      · obtain ⟨-, rfl⟩ := Prod.mk.injEq .. ▸ Option.some.inj h
        omega
      · exact absurd h (by simp)

theorem readVarIntRaw_pos (buf : Bytes) (off E : Nat) (s : Int) (v : Nat)
    (h : readVarIntRaw buf off E = (s, v)) (hs : 0 ≤ s) : 1 ≤ v := by
  unfold readVarIntRaw at h
  cases haux : readVarIntRawAux buf E (E - off) off 0 0 with
  | none =>
    rw [haux] at h
    obtain ⟨rfl, -⟩ := Prod.mk.injEq .. ▸ h
    omega
  | some p =>
    obtain ⟨a, n⟩ := p
    rw [haux] at h
    obtain ⟨-, rfl⟩ := Prod.mk.injEq .. ▸ h
    exact readVarIntRawAux_pos buf E _ off 0 0 a n haux

/-- C3: for an unknown DWORD-range event id at `pos`, the decoder chooses the
fixed interpretation (framing = the single id byte, nominal payload size 4)
whenever the raw var-int at `pos+1` is malformed, negative, above 100000,
over-running, or equal to 3; otherwise the variable interpretation (framing
of `1 + v` bytes, payload of `s` bytes) is chosen iff the look-ahead score
of the variable hypothesis strictly exceeds the fixed hypothesis' score
plus 2.  (Payload sizes are nominal: the payload read clamps at the end of
the buffer, like the source's `readBuffer`.) -/
theorem c3_dword_disambiguation (buf : Bytes) (E pos : Nat) (s : Int) (v : Nat)
    (h1 : 128 ≤ byteAt buf pos) (h2 : byteAt buf pos < 192)
    (hk : KNOWN_DWORD_IDS (byteAt buf pos) = false)
    (hl : pos < buf.length) (hE : E ≤ buf.length)
    (hvi : readVarIntRaw buf (pos + 1) E = (s, v)) :
    ((s < 0 ∨ 100000 < s ∨ (E : Int) < (pos : Int) + 1 + v + s ∨ s = 3) →
      (parseOneEvent buf E pos).map (fun x => (x.1.header, x.1.payload)) =
        some (sliceBytes buf pos (pos + 1),
              sliceBytes buf (pos + 1) (min buf.length (pos + 5)))) ∧
    (¬(s < 0 ∨ 100000 < s ∨ (E : Int) < (pos : Int) + 1 + v + s ∨ s = 3) →
      ((parseOneEvent buf E pos).map (fun x => (x.1.header, x.1.payload)) =
          some (sliceBytes buf pos (pos + 1 + v),
                sliceBytes buf (pos + 1 + v)
                  (min buf.length (pos + 1 + v + s.toNat))) ↔
        scoreAlignment buf (pos + 1 + v + s.toNat) E 200 >
          scoreAlignment buf (pos + 5) E 200 + 2) ∧
      (¬(scoreAlignment buf (pos + 1 + v + s.toNat) E 200 >
          scoreAlignment buf (pos + 5) E 200 + 2) →
        (parseOneEvent buf E pos).map (fun x => (x.1.header, x.1.payload)) =
          some (sliceBytes buf pos (pos + 1),
                sliceBytes buf (pos + 1) (min buf.length (pos + 5))))) := by
  have hid1 : ¬ (byteAt buf pos < 64) := by omega
  have hid2 : ¬ (byteAt buf pos < 128) := by omega
  have hred : parseOneEvent buf E pos =
      (if s < 0 ∨ 100000 < s ∨ (E : Int) < (pos : Int) + 1 + v + s then
        some (finishEvent buf pos 1 4 hl (by omega))
      else if s = 3 then some (finishEvent buf pos 1 4 hl (by omega))
      else if scoreAlignment buf (pos + 1 + v + s.toNat) E 200 >
              scoreAlignment buf (pos + 5) E 200 + 2 then
        some (finishEvent buf pos (1 + v) s.toNat hl (by omega))
      else some (finishEvent buf pos 1 4 hl (by omega))) := by
    unfold parseOneEvent
    rw [dif_pos hl]
    simp only [hvi, if_neg hid1, if_neg hid2, if_pos h2, hk, Bool.false_eq_true,
      if_false]
  constructor
  · intro hrej
    by_cases hr : s < 0 ∨ 100000 < s ∨ (E : Int) < (pos : Int) + 1 + v + s
    · rw [hred, if_pos hr, Option.map_some']
      unfold finishEvent
      simp only
    · have hs3 : s = 3 := by tauto
      rw [hred, if_neg hr, if_pos hs3, Option.map_some']
      unfold finishEvent
      simp only
  · intro hnrej
    have hr : ¬(s < 0 ∨ 100000 < s ∨ (E : Int) < (pos : Int) + 1 + v + s) := by tauto
    have hs3 : ¬(s = 3) := by tauto
    have hs0 : 0 ≤ s := by omega
    have hv1 : 1 ≤ v := readVarIntRaw_pos buf (pos + 1) E s v hvi hs0
    have hbound : pos + 1 + v ≤ buf.length := by
      have : (E : Int) ≥ (pos : Int) + 1 + v + s := by omega
      omega
    have hdiff : sliceBytes buf pos (pos + 1) ≠ sliceBytes buf pos (pos + 1 + v) := by
      intro hco
      have := congrArg List.length hco
      rw [length_sliceBytes, length_sliceBytes] at this
      omega
    rw [hred, if_neg hr, if_neg hs3]
    refine ⟨⟨?_, ?_⟩, ?_⟩
    · intro heq
      by_contra hsc
      rw [if_neg hsc, Option.map_some'] at heq
      unfold finishEvent at heq
      simp only at heq
      exact hdiff (congrArg Prod.fst (Option.some.inj heq))
    · intro hsc
      rw [if_pos hsc, Option.map_some']
      unfold finishEvent
      simp only
      rw [show pos + (1 + v) = pos + 1 + v from by omega]
    · intro hsc
      rw [if_neg hsc, Option.map_some']
      unfold finishEvent
      simp only

/-- C3, witness: a two-byte stream `[129, 1]` (unknown DWORD-range id 129;
the var-int at offset 1 decodes to size 1, which over-runs the stream), so
the event is decoded as fixed. -/
theorem c3_dword_disambiguation_witness :
    (parseOneEvent [129, 1] 2 0).map (fun x => (x.1.header, x.1.payload)) =
      some ([129], [1]) := by
  have h := (c3_dword_disambiguation [129, 1] 2 0 1 1 (by decide) (by decide)
    (by decide) (by decide) (by decide) (by decide)).1
    (Or.inr (Or.inr (Or.inl (by decide))))
  rw [h]
  decide

theorem scoreAux_claimWalk (buf : Bytes) (limit E : Nat) :
    ∀ fuel off t c m,
    scoreAux buf limit E fuel off t c m =
      (match claimWalk buf limit E fuel off t c m with
       | none => -100
       | some p => 10 * (p.1 : Int) - 3 * (p.2 : Int)) := by
  intro fuel
  induction fuel with
  | zero => intro off t c m; rfl
  | succ fuel ih =>
    intro off t c m
    unfold scoreAux claimWalk
    by_cases hlt : off < limit
    case neg => rw [if_neg hlt, if_neg hlt]
    case pos =>
      rw [if_pos hlt, if_pos hlt]
      dsimp only
      rcases Nat.lt_or_ge (byteAt buf off) 32 with h32 | h32
      · have hK : KNOWN_DWORD_IDS (byteAt buf off) = false := by
          unfold KNOWN_DWORD_IDS
          rw [decide_eq_false (by omega)]
          rfl
        rw [if_pos (show byteAt buf off < 64 by omega),
            if_pos (show (decide (byteAt buf off < 32) &&
              !KNOWN_DWORD_IDS (byteAt buf off)) = true by
                rw [hK, decide_eq_true h32]; rfl),
            if_pos h32]
        exact ih (off+2) t (c+1) (max m (c+1))
      · rcases Nat.lt_or_ge (byteAt buf off) 64 with h64 | h64
        · rw [if_pos h64,
              if_neg (show ¬ (decide (byteAt buf off < 32) &&
                !KNOWN_DWORD_IDS (byteAt buf off)) = true by
                  rw [decide_eq_false (by omega)]; simp),
              if_neg (show ¬ byteAt buf off < 32 by omega), if_pos h64]
          exact ih (off+2) t 0 m
        · rcases Nat.lt_or_ge (byteAt buf off) 128 with h128 | h128
          · rw [if_neg (show ¬ byteAt buf off < 64 by omega), if_pos h128,
                if_neg (show ¬ byteAt buf off < 32 by omega),
                if_neg (show ¬ byteAt buf off < 64 by omega), if_pos h128]
            exact ih (off+3) t 0 m
          · rcases Nat.lt_or_ge (byteAt buf off) 192 with h192 | h192
            · rw [if_neg (show ¬ byteAt buf off < 64 by omega),
                  if_neg (show ¬ byteAt buf off < 128 by omega), if_pos h192,
                  if_neg (show ¬ byteAt buf off < 32 by omega),
                  if_neg (show ¬ byteAt buf off < 64 by omega),
                  if_neg (show ¬ byteAt buf off < 128 by omega), if_pos h192]
              exact ih (off+5) t 0 m
            · rw [if_neg (show ¬ byteAt buf off < 64 by omega),
                  if_neg (show ¬ byteAt buf off < 128 by omega),
                  if_neg (show ¬ byteAt buf off < 192 by omega),
                  if_neg (show ¬ byteAt buf off < 32 by omega),
                  if_neg (show ¬ byteAt buf off < 64 by omega),
                  if_neg (show ¬ byteAt buf off < 128 by omega),
                  if_neg (show ¬ byteAt buf off < 192 by omega)]
              by_cases hc : 0 ≤ (readVarIntRaw buf (off+1) E).1 ∧
                  (readVarIntRaw buf (off+1) E).1 < 100000 ∧
                  (off : Int) + 1 + (readVarIntRaw buf (off+1) E).2 +
                    (readVarIntRaw buf (off+1) E).1 ≤ (E : Int)
              · rw [if_pos hc, if_neg (by omega)]
                exact ih _ (t+1) 0 m
              · rw [if_neg hc, if_pos (by omega)]

/-- C4 (amended): with a 200-byte window, the look-ahead score of the source
(`scoreAlignment`) coincides with the claim's walker: ids below 64 advance 2
(incrementing the consecutive-small counter when the id is below 32,
resetting it otherwise), ids in `[64,128)` advance 3 and ids in `[128,192)`
advance 5 (both resetting the counter), ids of 192 or above raw-decode a
var-int and advance past its payload while counting a TEXT/DATA event; the
final score is `10 * textDataCount - 3 * maxConsecutiveSmall`, and the walk
is rejected with score `-100` exactly when some TEXT/DATA step's var-int is
invalid, decodes to *at least 100000* (the cap the claim omitted), or its
payload would extend past the stream end. -/
theorem c4_lookahead_score (buf : Bytes) (q E : Nat) :
    scoreAlignment buf q E 200 = claimScore buf q E 200 := by
  unfold scoreAlignment claimScore
  exact scoreAux_claimWalk buf (min (q + 200) E) E (min (q + 200) E - q) q 0 0 0

/-- C4, counterexample to the claim as stated: in `capStream` the TEXT-range
id 192 is followed by a well-formed var-int decoding to exactly 100000 whose
payload fits exactly within the stream end, so the claim's walker (no size
cap, `claimScoreOrig`) scores 10, while the source rejects the hypothesis
with score -100 because of the `size < 100000` check. -/
theorem c4_lookahead_cex :
    scoreAlignment capStream 0 100004 200 = -100 ∧
    claimScoreOrig capStream 0 100004 200 = 10 :=
  ⟨by decide, by decide⟩

/-- Step-count adequacy for the var-int loop: any allowance of at least
`E - off` bytes (each iteration consumes one byte below `E`) yields the same
result, so instantiating `readVarIntRaw` with exactly `E - off` is faithful
to the unbounded source loop. -/
theorem readVarIntRawAux_fuel (buf : Bytes) (E : Nat) :
    ∀ fuel fuel' off shift acc, E - off ≤ fuel → E - off ≤ fuel' →
    readVarIntRawAux buf E fuel off shift acc =
      readVarIntRawAux buf E fuel' off shift acc := by
  intro fuel
  induction fuel with
  | zero =>
    intro fuel' off shift acc h h'
    cases fuel' with
    | zero => rfl
    | succ f' =>
      unfold readVarIntRawAux
      rw [if_neg (by omega)]
  | succ fuel ih =>
    intro fuel' off shift acc h h'
    cases fuel' with
    | zero =>
      unfold readVarIntRawAux
      rw [if_neg (by omega)]
    | succ f' =>
      unfold readVarIntRawAux
      by_cases ho : off < E
      · rw [if_pos ho, if_pos ho]
        dsimp only
        rw [ih f' (off+1) (shift+7) _ (by omega) (by omega)]
      · rw [if_neg ho, if_neg ho]

/-- Step-count adequacy for the event loop: any allowance of at least
`E - pos` yields the same result (each successful step strictly advances the
position), so `parseFlp`'s instantiation with exactly `eventsSize` steps is
faithful to the source's `while` loop. -/
theorem parseEventsLoop_fuel (buf : Bytes) (E : Nat) :
    ∀ fuel fuel' pos st, E - pos ≤ fuel → E - pos ≤ fuel' →
    parseEventsLoop buf E fuel pos st = parseEventsLoop buf E fuel' pos st := by
  intro fuel
  induction fuel with
  | zero =>
    intro fuel' pos st h h'
    cases fuel' with
    | zero => rfl
    | succ f' =>
      unfold parseEventsLoop
      rw [if_neg (by omega), if_neg (by omega)]
  | succ fuel ih =>
    intro fuel' pos st h h'
    cases fuel' with
    | zero =>
      unfold parseEventsLoop
      rw [if_neg (by omega), if_neg (by omega)]
    | succ f' =>
      unfold parseEventsLoop
      by_cases hp : pos < E
      · rw [if_pos hp, if_pos hp]
        cases hone : parseOneEvent buf E pos with
        | none => rfl
        | some x =>
          obtain ⟨ev, p'⟩ := x
          dsimp only
          exact ih f' p'.val _ (by have := p'.2; omega) (by have := p'.2; omega)
      · rw [if_neg hp, if_neg hp]

/-- Step-count adequacy for the look-ahead walker: any allowance of at least
`limit - off` yields the same score (every iteration advances `off` by at
least one byte), so `scoreAlignment`'s instantiation with exactly
`limit - off` is faithful to the source's `while` loop. -/
theorem scoreAux_fuel (buf : Bytes) (limit E : Nat) :
    ∀ fuel fuel' off t c m, limit - off ≤ fuel → limit - off ≤ fuel' →
    scoreAux buf limit E fuel off t c m = scoreAux buf limit E fuel' off t c m := by
  intro fuel
  induction fuel with
  | zero =>
    intro fuel' off t c m h h'
    cases fuel' with
    | zero => rfl
    | succ f' =>
      unfold scoreAux
      rw [if_neg (by omega)]
  | succ fuel ih =>
    intro fuel' off t c m h h'
    cases fuel' with
    | zero =>
      unfold scoreAux
      rw [if_neg (by omega)]
    | succ f' =>
      unfold scoreAux
      by_cases ho : off < limit
      · rw [if_pos ho, if_pos ho]
        dsimp only
        split
        · split
          · exact ih f' (off+2) t (c+1) (max m (c+1)) (by omega) (by omega)
          · exact ih f' (off+2) t 0 m (by omega) (by omega)
        · split
          · exact ih f' (off+3) t 0 m (by omega) (by omega)
          · split
            · exact ih f' (off+5) t 0 m (by omega) (by omega)
            · split
              · exact ih f' _ (t+1) 0 m (by omega) (by omega)
              · rfl
      · rw [if_neg ho, if_neg ho]
